import Mathlib

/-
Shallow embedding of the MCMC chain drivers of the algstat repository:
  src/metropolis_hypergeometric_cpp.cpp  (function metropolis_hypergeometric_cpp)
  src/metropolis_uniform_cpp.cpp         (function metropolis_uniform_cpp)

Modelling conventions:
  * C++ `double` is modelled as ℝ; C `lgamma` is `Real.log ∘ Real.Gamma`
    (identical to the C function on the positive arguments at which the
    source evaluates it).
  * `IntegerVector`s of length n are modelled as functions ℕ → ℤ, read at
    indices k < n (C arrays are unchecked, so out-of-range entries are
    irrelevant junk in both the source and the model).
  * The R random streams produced up front by `runif` / `sample` are
    modelled as explicit parameter functions (unifs, unifs2, unifs3,
    whichMove, ...); the chain is a deterministic function of them.
  * C++ `/` on int is truncated division, modelled by `Int.tdiv`.
  * The external helpers `sis_tbl`, `hit_and_run_fun`, `adaptive_fun`
    (declared in headers whose sources are not part of this repository
    snapshot) are modelled as opaque-to-the-theorems parameter functions
    carried in the parameter records.
-/

namespace AlgStat

/-- C lgamma: the natural log of the Gamma function (the source only ever
evaluates it at arguments ≥ 1, where Γ is positive). -/
noncomputable def lgamma (x : ℝ) : ℝ := Real.log (Real.Gamma x)

/-- The `anyIsNegative` flag computed by both drivers: some entry of the
proposal with index below n is negative. -/
def anyIsNegative (n : ℕ) (v : ℕ → ℤ) : Prop := ∃ k < n, v k < 0

instance (n : ℕ) (v : ℕ → ℤ) : Decidable (anyIsNegative n v) :=
  inferInstanceAs (Decidable (∃ k < n, v k < 0))

/-- The log-ratio `sum(lgamma(current+1)) - sum(lgamma(proposal+1))` of the
hypergeometric acceptance computation. -/
noncomputable def logRatio (n : ℕ) (cur prop : ℕ → ℤ) : ℝ :=
  (∑ k ∈ Finset.range n, lgamma ((cur k : ℝ) + 1)) -
    ∑ k ∈ Finset.range n, lgamma ((prop k : ℝ) + 1)

open scoped Classical in
/-- Transition probability of the hypergeometric chain
(metropolis_hypergeometric_cpp lines 92-107): 0 if some proposal entry is
negative, else exp of the lgamma log-ratio, then clipped at 1. -/
noncomputable def transProbHG (n : ℕ) (cur prop : ℕ → ℤ) : ℝ :=
  let prob : ℝ := if anyIsNegative n prop then 0 else Real.exp (logRatio n cur prop)
  if prob > 1 then 1 else prob

open scoped Classical in
/-- Transition probability of the uniform chain (metropolis_uniform_cpp
lines 176-191): 0 if some proposal entry is negative, else 1, then the
(vacuous) clip at 1. -/
noncomputable def transProbUN (n : ℕ) (prop : ℕ → ℤ) : ℝ :=
  let prob : ℝ := if anyIsNegative n prop then 0 else 1
  if prob > 1 then 1 else prob

theorem transProbHG_of_neg {n : ℕ} {prop : ℕ → ℤ} (cur : ℕ → ℤ)
    (h : anyIsNegative n prop) : transProbHG n cur prop = 0 := by
  unfold transProbHG
  simp only [if_pos h]
  norm_num

theorem transProbHG_of_nonneg {n : ℕ} {prop : ℕ → ℤ} (cur : ℕ → ℤ)
    (h : ¬ anyIsNegative n prop) :
    transProbHG n cur prop = min 1 (Real.exp (logRatio n cur prop)) := by
  unfold transProbHG
  simp only [if_neg h]
  rcases le_or_lt (Real.exp (logRatio n cur prop)) 1 with h1 | h1
  · rw [if_neg (not_lt.mpr h1), min_eq_right h1]
  · rw [if_pos h1, min_eq_left h1.le]

theorem transProbUN_of_neg {n : ℕ} {prop : ℕ → ℤ}
    (h : anyIsNegative n prop) : transProbUN n prop = 0 := by
  unfold transProbUN
  simp only [if_pos h]
  norm_num

theorem transProbUN_of_nonneg {n : ℕ} {prop : ℕ → ℤ}
    (h : ¬ anyIsNegative n prop) : transProbUN n prop = 1 := by
  unfold transProbUN
  simp only [if_neg h]
  norm_num

theorem transProbHG_nonneg (n : ℕ) (cur prop : ℕ → ℤ) :
    0 ≤ transProbHG n cur prop := by
  unfold transProbHG
  by_cases h : anyIsNegative n prop
  · simp only [if_pos h]
    norm_num
  · simp only [if_neg h]
    split
    · norm_num
    · exact (Real.exp_pos _).le

theorem transProbHG_le_one (n : ℕ) (cur prop : ℕ → ℤ) :
    transProbHG n cur prop ≤ 1 := by
  unfold transProbHG
  by_cases h : anyIsNegative n prop
  · simp only [if_pos h]
    norm_num
  · simp only [if_neg h]
    split
    · exact le_refl 1
    · exact le_of_not_lt (by assumption)

theorem transProbUN_nonneg (n : ℕ) (prop : ℕ → ℤ) :
    0 ≤ transProbUN n prop := by
  unfold transProbUN
  by_cases h : anyIsNegative n prop
  · simp only [if_pos h]
    norm_num
  · simp only [if_neg h]
    norm_num

theorem transProbUN_le_one (n : ℕ) (prop : ℕ → ℤ) :
    transProbUN n prop ≤ 1 := by
  unfold transProbUN
  by_cases h : anyIsNegative n prop
  · simp only [if_pos h]
    norm_num
  · simp only [if_neg h]
    norm_num

/-- Cumulative weight `sums` computed by the inner loop of the non-uniform
move selection (entries move_dist[0] + ... + move_dist[l]). -/
noncomputable def cumsum (dist : ℕ → ℝ) (l : ℕ) : ℝ := ∑ m ∈ Finset.range (l + 1), dist m

open scoped Classical in
/-- Linear search of the C loop `for(l = 0; l < nMoves; ++l){ if (cond l) break }`:
starting at index `start` with `fuel` indices left, return the first index
satisfying p, or none. -/
noncomputable def selLoop (p : ℕ → Prop) : ℕ → ℕ → Option ℕ
  | _, 0 => none
  | l, fuel + 1 => if p l then some l else selLoop p (l + 1) fuel

/-- Non-uniform move selection (metropolis_hypergeometric_cpp lines 49-64,
metropolis_uniform_cpp lines 58-73): the first move index l with
`unifs3[t] <= cumsum(l) / counter`. -/
noncomputable def selNU (nMoves : ℕ) (dist : ℕ → ℝ) (counter u : ℝ) : Option ℕ :=
  selLoop (fun l => u ≤ cumsum dist l / counter) 0 nMoves

theorem selLoop_eq_some (p : ℕ → Prop) (fuel : ℕ) :
    ∀ start l, selLoop p start fuel = some l ↔
      (start ≤ l ∧ l < start + fuel ∧ p l ∧ ∀ m, start ≤ m → m < l → ¬ p m) := by
  induction fuel with
  | zero =>
    intro start l
    simp only [selLoop]
    constructor
    · intro h
      exact absurd h (by simp)
    · intro h
      omega
  | succ fuel ih =>
    intro start l
    simp only [selLoop]
    by_cases hp : p start
    · rw [if_pos hp]
      constructor
      · intro h
        have hl : l = start := by
          have := Option.some_injective _ h.symm
          omega
        subst hl
        exact ⟨le_refl _, by omega, hp, fun m h1 h2 _ => by omega⟩
      · intro ⟨h1, h2, h3, h4⟩
        by_cases he : start = l
        · rw [he]
        · exact absurd hp (h4 start (le_refl _) (by omega))
    · rw [if_neg hp]
      rw [ih (start + 1) l]
      constructor
      · intro ⟨h1, h2, h3, h4⟩
        refine ⟨by omega, by omega, h3, fun m hm1 hm2 => ?_⟩
        by_cases he : m = start
        · rw [he]; exact hp
        · exact h4 m (by omega) hm2
      · intro ⟨h1, h2, h3, h4⟩
        have hls : start ≠ l := fun he => hp (he ▸ h3)
        exact ⟨by omega, by omega, h3, fun m hm1 hm2 => h4 m (by omega) hm2⟩

theorem selNU_eq_some (nMoves : ℕ) (dist : ℕ → ℝ) (counter u : ℝ) (l : ℕ) :
    selNU nMoves dist counter u = some l ↔
      (l < nMoves ∧ u ≤ cumsum dist l / counter ∧
        ∀ m < l, ¬ u ≤ cumsum dist m / counter) := by
  unfold selNU
  rw [selLoop_eq_some]
  constructor
  · intro ⟨_, h2, h3, h4⟩
    exact ⟨by omega, h3, fun m hm => h4 m (by omega) hm⟩
  · intro ⟨h1, h2, h3⟩
    exact ⟨by omega, by omega, h2, fun m _ hm => h3 m hm⟩

/-
Hit-and-run step range, metropolis_uniform_cpp lines 83-90.  Rcpp `max` /
`min` are undefined on empty vectors (they read element 0 of the empty
buffer); the model returns the junk value 0 there, and every theorem about
lb/ub assumes the corresponding filtered vector is nonempty.
-/

/-- Rcpp sugar max of an IntegerVector (defined behavior only when nonempty). -/
def rcppMax : List ℤ → ℤ
  | [] => 0
  | x :: xs => xs.foldl max x

/-- Rcpp sugar min of an IntegerVector (defined behavior only when nonempty). -/
def rcppMin : List ℤ → ℤ
  | [] => 0
  | x :: xs => xs.foldl min x

/-- The vector `stepSize = (-1 * current_num) / move_num` over the
coordinates k < n with move[k] != 0, with C++ truncated integer division. -/
def hnrStepList (n : ℕ) (cur mov : ℕ → ℤ) : List ℤ :=
  ((List.range n).filter (fun k => mov k ≠ 0)).map (fun k => Int.tdiv (-(cur k)) (mov k))

/-- `lb = max(stepSize[stepSize < 0])` of metropolis_uniform_cpp line 89. -/
def hnrLb (n : ℕ) (cur mov : ℕ → ℤ) : ℤ :=
  rcppMax ((hnrStepList n cur mov).filter (fun x => x < 0))

/-- `ub = min(stepSize[stepSize > 0])` of metropolis_uniform_cpp line 90. -/
def hnrUb (n : ℕ) (cur mov : ℕ → ℤ) : ℤ :=
  rcppMin ((hnrStepList n cur mov).filter (fun x => 0 < x))

theorem foldl_max_le_iff (xs : List ℤ) : ∀ (a c : ℤ), xs.foldl max a ≤ c ↔ a ≤ c ∧ ∀ x ∈ xs, x ≤ c := by
  induction xs with
  | nil => intro a c; simp
  | cons y ys ih =>
    intro a c
    simp only [List.foldl_cons, ih, max_le_iff, List.mem_cons]
    constructor
    · intro ⟨⟨h1, h2⟩, h3⟩
      exact ⟨h1, fun x hx => hx.elim (fun he => he ▸ h2) (h3 x)⟩
    · intro ⟨h1, h2⟩
      exact ⟨⟨h1, h2 y (Or.inl rfl)⟩, fun x hx => h2 x (Or.inr hx)⟩

theorem le_foldl_min_iff (xs : List ℤ) : ∀ (a c : ℤ), c ≤ xs.foldl min a ↔ c ≤ a ∧ ∀ x ∈ xs, c ≤ x := by
  induction xs with
  | nil => intro a c; simp
  | cons y ys ih =>
    intro a c
    simp only [List.foldl_cons, ih, le_min_iff, List.mem_cons]
    constructor
    · intro ⟨⟨h1, h2⟩, h3⟩
      exact ⟨h1, fun x hx => hx.elim (fun he => he ▸ h2) (h3 x)⟩
    · intro ⟨h1, h2⟩
      exact ⟨⟨h1, h2 y (Or.inl rfl)⟩, fun x hx => h2 x (Or.inr hx)⟩

theorem le_rcppMax {xs : List ℤ} {x : ℤ} (hx : x ∈ xs) : x ≤ rcppMax xs := by
  match xs with
  | [] => exact absurd hx (by simp)
  | y :: ys =>
    have h := (foldl_max_le_iff ys y (rcppMax (y :: ys))).mp (le_refl _)
    rcases List.mem_cons.mp hx with he | hm
    · exact he ▸ h.1
    · exact h.2 x hm

theorem rcppMin_le {xs : List ℤ} {x : ℤ} (hx : x ∈ xs) : rcppMin xs ≤ x := by
  match xs with
  | [] => exact absurd hx (by simp)
  | y :: ys =>
    have h := (le_foldl_min_iff ys y (rcppMin (y :: ys))).mp (le_refl _)
    rcases List.mem_cons.mp hx with he | hm
    · exact he ▸ h.1
    · exact h.2 x hm

theorem rcppMax_mem {xs : List ℤ} (h : xs ≠ []) : rcppMax xs ∈ xs := by
  match xs with
  | [] => exact absurd rfl h
  | y :: ys =>
    clear h
    show ys.foldl max y ∈ y :: ys
    induction ys generalizing y with
    | nil => simp [List.foldl]
    | cons z zs ih =>
      simp only [List.foldl_cons]
      rcases List.mem_cons.mp (ih (max y z)) with he | hm
      · rcases max_choice y z with hc | hc
        · rw [he, hc]
          exact List.mem_cons_self y (z :: zs)
        · rw [he, hc]
          exact List.mem_cons_of_mem y (List.mem_cons_self z zs)
      · exact List.mem_cons_of_mem y (List.mem_cons_of_mem z hm)

theorem rcppMin_mem {xs : List ℤ} (h : xs ≠ []) : rcppMin xs ∈ xs := by
  match xs with
  | [] => exact absurd rfl h
  | y :: ys =>
    clear h
    show ys.foldl min y ∈ y :: ys
    induction ys generalizing y with
    | nil => simp [List.foldl]
    | cons z zs ih =>
      simp only [List.foldl_cons]
      rcases List.mem_cons.mp (ih (min y z)) with he | hm
      · rcases min_choice y z with hc | hc
        · rw [he, hc]
          exact List.mem_cons_self y (z :: zs)
        · rw [he, hc]
          exact List.mem_cons_of_mem y (List.mem_cons_self z zs)
      · exact List.mem_cons_of_mem y (List.mem_cons_of_mem z hm)

/-
Adaptive sub-chain, metropolis_uniform_cpp lines 92-130: an internal
Metropolis walk with +-1 steps along the selected move, using the
hypergeometric acceptance computation (its lines 103-119 duplicate the
text of lines 92-107 of metropolis_hypergeometric_cpp, i.e. transProbHG)
and the transition draws `unifs[l]` indexed by the sub-step counter l.
-/

open scoped Classical in
/-- One sub-step of the internal walk of the adaptive strategy: propose
`w_current + c * move`, accept it when `u < prob2` where prob2 is the
hypergeometric transition probability. -/
noncomputable def adaptSubStep (n : ℕ) (mov : ℕ → ℤ) (c : ℤ) (u : ℝ) (w : ℕ → ℤ) : ℕ → ℤ :=
  let wp : ℕ → ℤ := fun k => w k + c * mov k
  if u < transProbHG n w wp then wp else w

/-- The internal sub-chain of the adaptive strategy, run for `len = ub - lb`
sub-steps (lines 93 and 98): sub-step l draws the sign `consts l` from
{-1,+1} and the transition uniform `unifs[l]`. -/
noncomputable def adaptBlock (n : ℕ) (mov : ℕ → ℤ) (consts : ℕ → ℤ) (unifs : ℕ → ℝ)
    (cur : ℕ → ℤ) (len : ℕ) : ℕ → ℤ :=
  (List.range len).foldl (fun w l => adaptSubStep n mov (consts l) (unifs l) w) cur

/-
metropolis_hypergeometric_cpp.  The external helpers hit_and_run_fun,
adaptive_fun (headers hit_and_run_fun.h / adaptive_fun.h) and sis_tbl
(header sis_tbl.h) are not part of this repository snapshot; they are
modelled as parameter functions (hrFun, adFun, sisTbl) of the parameter
record, fed the raw-step index t in place of their internal random draws.
-/

/-- Inputs of metropolis_hypergeometric_cpp together with its pre-drawn
random streams and the external helper functions it calls. -/
structure HGParams where
  n : ℕ
  nMoves : ℕ
  moves : ℕ → ℕ → ℤ
  iter : ℕ
  thin : ℕ
  hit_and_run : Bool
  SIS : Bool
  non_uniform : Bool
  adaptive : Bool
  whichMove : ℕ → ℕ
  unifs : ℕ → ℝ
  unifs2 : ℕ → ℝ
  unifs3 : ℕ → ℝ
  sisTbl : ℕ → ℕ → ℤ
  hrFun : (ℕ → ℤ) → (ℕ → ℤ) → ℕ → ℕ → ℤ
  adFun : (ℕ → ℤ) → (ℕ → ℤ) → ℕ → ℕ → ℤ

/-- Mutable state of the metropolis_hypergeometric_cpp main loop. -/
structure HGState where
  cur : ℕ → ℤ
  dist : ℕ → ℝ
  counter : ℝ
  whichSel : ℕ
  mov : ℕ → ℤ
  acc : ℝ

/-- Initial loop state of metropolis_hypergeometric_cpp (lines 28-44):
move_dist = rep(1.0, nMoves), counter = sum(move_dist) = nMoves, move is
the zero-initialized IntegerVector(n), which_move is uninitialized
(modelled as 0), accept_prob = 0. -/
def hgInit (P : HGParams) (cur0 : ℕ → ℤ) : HGState :=
  { cur := cur0, dist := fun _ => 1, counter := (P.nMoves : ℝ), whichSel := 0,
    mov := fun _ => 0, acc := 0 }

open scoped Classical in
/-- Move selection of raw step t (lines 49-74): non-uniform weighted
selection when non_uniform, else column whichMove[t]-1 of moves (the -1
undoes the 1-based indexing of the R sample function).  When the non-uniform scan finds no index
(impossible for unifs3[t] <= 1), move and which_move keep their previous
values. -/
noncomputable def hgSelect (P : HGParams) (s : HGState) (t : ℕ) : HGState :=
  if P.non_uniform then
    match selNU P.nMoves s.dist s.counter (P.unifs3 t) with
    | some l => { s with mov := fun k => P.moves k l, whichSel := l }
    | none => s
  else
    { s with mov := fun k => P.moves k (P.whichMove t - 1) }

/-- Strategy proposal of raw step t before the SIS substitution (lines
65-67 and 76-85); in C++ the adaptive assignment at line 79 overwrites the
hit-and-run assignment at line 77 when both flags are set. -/
noncomputable def hgBaseProposal (P : HGParams) (s : HGState) (t : ℕ) : ℕ → ℤ :=
  if P.non_uniform then fun k => s.cur k + s.mov k
  else if P.adaptive then P.adFun s.cur s.mov t
  else if P.hit_and_run then P.hrFun s.cur s.mov t
  else fun k => s.cur k + s.mov k

open scoped Classical in
/-- Proposal of raw step t = thin*i+j (lines 65-89): the strategy proposal,
replaced by the sis_tbl draw when SIS is enabled and unifs2[i] < .01. -/
noncomputable def hgProposal (P : HGParams) (s : HGState) (t : ℕ) : ℕ → ℤ :=
  if P.SIS = true ∧ P.unifs2 (t / P.thin) < 1 / 100 then P.sisTbl t
  else hgBaseProposal P s t

open scoped Classical in
/-- One raw step of metropolis_hypergeometric_cpp (loop body, lines 46-131):
select a move, build the proposal, compute the transition probability,
accumulate it into accept_prob, and accept when unifs[t] < prob (updating
the selection weights as well in the non-uniform strategy). -/
noncomputable def rawStepHG (P : HGParams) (s : HGState) (t : ℕ) : HGState :=
  let s1 := hgSelect P s t
  let prop := hgProposal P s1 t
  let prob := transProbHG P.n s1.cur prop
  let s2 := { s1 with acc := s1.acc + prob / ((P.iter * P.thin : ℕ) : ℝ) }
  if P.non_uniform then
    if P.unifs t < prob then
      { s2 with cur := prop,
                dist := fun l => if l = s2.whichSel then s2.dist l + 1 else s2.dist l,
                counter := s2.counter + 1 }
    else s2
  else
    if P.unifs t < prob then { s2 with cur := prop } else s2

/-- State after t raw steps of metropolis_hypergeometric_cpp, starting from s0. -/
noncomputable def hgStateAt (P : HGParams) (s0 : HGState) : ℕ → HGState
  | 0 => s0
  | t + 1 => rawStepHG P (hgStateAt P s0 t) t

/-- Column i of the returned `steps` matrix (lines 133-136): the current
table after the (i+1)-st block of thin raw steps. -/
noncomputable def hgSteps (P : HGParams) (cur0 : ℕ → ℤ) (i : ℕ) : ℕ → ℤ :=
  (hgStateAt P (hgInit P cur0) ((i + 1) * P.thin)).cur

/-- The returned accept_prob of metropolis_hypergeometric_cpp. -/
noncomputable def hgAcceptProb (P : HGParams) (cur0 : ℕ → ℤ) : ℝ :=
  (hgStateAt P (hgInit P cur0) (P.iter * P.thin)).acc

/-- Contents of the `current` vector of the caller when the function returns
(Rcpp IntegerVector arguments alias the object of the caller, so the in-place
writes at lines 116-118 / 126-128 are visible to the caller). -/
noncomputable def hgFinalCur (P : HGParams) (cur0 : ℕ → ℤ) : ℕ → ℤ :=
  (hgStateAt P (hgInit P cur0) (P.iter * P.thin)).cur

/-
metropolis_uniform_cpp.  Its hit-and-run and adaptive strategies are
implemented inline (lines 83-163).  The IntegerVector `run` persists
across raw steps and is read before any assignment on steps whose first
hit-and-run branch is the adaptive one (it is default-constructed empty,
so those reads are undefined behavior in C++); the model carries its value
in the state, starting from an arbitrary parameter run0.
-/

/-- Inputs of metropolis_uniform_cpp together with its pre-drawn random
streams, the external sis_tbl helper, the per-(step, sub-step) draws from
`constant = {-1, 1}` used by the adaptive sub-chain (line 99), the
per-step draw `Rcpp::sample(seq(lb, ub), 1)` (line 152, a function of the
step index and the bounds), and the initial value run0 of the `run`
vector. -/
structure UNParams where
  n : ℕ
  nMoves : ℕ
  moves : ℕ → ℕ → ℤ
  iter : ℕ
  thin : ℕ
  hit_and_run : Bool
  SIS : Bool
  non_uniform : Bool
  adaptive : Bool
  whichMove : ℕ → ℕ
  unifs : ℕ → ℝ
  unifs2 : ℕ → ℝ
  unifs3 : ℕ → ℝ
  sisTbl : ℕ → ℕ → ℤ
  consts : ℕ → ℕ → ℤ
  runDraw : ℕ → ℤ → ℤ → ℤ
  run0 : ℤ

/-- Mutable state of the metropolis_uniform_cpp main loop. -/
structure UNState where
  cur : ℕ → ℤ
  dist : ℕ → ℝ
  counter : ℝ
  whichSel : ℕ
  mov : ℕ → ℤ
  run : ℤ
  acc : ℝ

/-- Initial loop state of metropolis_uniform_cpp (lines 20-53):
move_dist = rep(1.0, nMoves), counter = moves.ncol() = nMoves. -/
def unInit (P : UNParams) (cur0 : ℕ → ℤ) : UNState :=
  { cur := cur0, dist := fun _ => 1, counter := (P.nMoves : ℝ), whichSel := 0,
    mov := fun _ => 0, run := P.run0, acc := 0 }

open scoped Classical in
/-- Move selection of raw step t of metropolis_uniform_cpp (lines 58-82),
identical in shape to hgSelect. -/
noncomputable def unSelect (P : UNParams) (s : UNState) (t : ℕ) : UNState :=
  if P.non_uniform then
    match selNU P.nMoves s.dist s.counter (P.unifs3 t) with
    | some l => { s with mov := fun k => P.moves k l, whichSel := l }
    | none => s
  else
    { s with mov := fun k => P.moves k (P.whichMove t - 1) }

open scoped Classical in
/-- Step-multiplier selection of the non-adaptive hit-and-run branch
(lines 146-157): if lb > ub the multiplier falls back to 1, otherwise it
is drawn from seq(lb, ub); a multiplier equal to 0 is then replaced by 1. -/
noncomputable def runSelect (P : UNParams) (t : ℕ) (lb ub : ℤ) : ℤ :=
  let r1 := if lb > ub then 1 else P.runDraw t lb ub
  if r1 = 0 then 1 else r1

open scoped Classical in
/-- Endpoint re-validation of lines 138-145, lower bound: when some
stepSize entry is 0 and `current + lb * move` has a negative entry, lb is
clamped to 1. -/
noncomputable def hnrLbPatch (P : UNParams) (s : UNState) : ℤ :=
  if (0 ∈ hnrStepList P.n s.cur s.mov) ∧
      (∃ k < P.n, s.cur k + hnrLb P.n s.cur s.mov * s.mov k < 0) then 1
  else hnrLb P.n s.cur s.mov

open scoped Classical in
/-- Endpoint re-validation of lines 138-145, upper bound: when some
stepSize entry is 0 and `current + ub * move` has a negative entry, ub is
clamped to -1. -/
noncomputable def hnrUbPatch (P : UNParams) (s : UNState) : ℤ :=
  if (0 ∈ hnrStepList P.n s.cur s.mov) ∧
      (∃ k < P.n, s.cur k + hnrUb P.n s.cur s.mov * s.mov k < 0) then -1
  else hnrUb P.n s.cur s.mov

open scoped Classical in
/-- The hit-and-run branch of raw step t (lines 83-163): computes the step
range, then either (adaptive) runs the internal sub-chain of lines 92-135 -
whose result, stored into `proposal` at lines 128-130, is dead: the
unconditional overwrite at lines 159-163 replaces it with
`current + run * move` using the stale `run` value - or (non-adaptive)
applies the endpoint re-validation of lines 138-145, selects the
multiplier, and forms `current + run * move` (lines 159-163).  Returns the
proposal and the value left in `run`. -/
noncomputable def unHitAndRun (P : UNParams) (s : UNState) (t : ℕ) : (ℕ → ℤ) × ℤ :=
  if P.adaptive then
    let _deadProposal := adaptBlock P.n s.mov (P.consts t) P.unifs s.cur
      (hnrUb P.n s.cur s.mov - hnrLb P.n s.cur s.mov).toNat
    ((fun k => s.cur k + s.run * s.mov k), s.run)
  else
    let r := runSelect P t (hnrLbPatch P s) (hnrUbPatch P s)
    ((fun k => s.cur k + r * s.mov k), r)

open scoped Classical in
/-- Strategy proposal of raw step t of metropolis_uniform_cpp together with
the updated `run` value (lines 58-168): weighted or direct moves add the
selected move; the hit-and-run flag routes through unHitAndRun. -/
noncomputable def unPrePair (P : UNParams) (s : UNState) (t : ℕ) : (ℕ → ℤ) × ℤ :=
  if P.non_uniform then ((fun k => s.cur k + s.mov k), s.run)
  else if P.hit_and_run then unHitAndRun P s t
  else ((fun k => s.cur k + s.mov k), s.run)

open scoped Classical in
/-- Proposal of raw step t = thin*i+j of metropolis_uniform_cpp (lines
58-174): the strategy proposal, replaced by the sis_tbl draw when SIS is
enabled and unifs2[i] < .05. -/
noncomputable def unProposal (P : UNParams) (s : UNState) (t : ℕ) : ℕ → ℤ :=
  if P.SIS = true ∧ P.unifs2 (t / P.thin) < 5 / 100 then P.sisTbl t
  else (unPrePair P s t).1

open scoped Classical in
/-- One raw step of metropolis_uniform_cpp (loop body, lines 55-217). -/
noncomputable def rawStepUN (P : UNParams) (s : UNState) (t : ℕ) : UNState :=
  let s1 := unSelect P s t
  let prop := unProposal P s1 t
  let prob := transProbUN P.n prop
  let s2 := { s1 with run := (unPrePair P s1 t).2,
                      acc := s1.acc + prob / ((P.iter * P.thin : ℕ) : ℝ) }
  if P.non_uniform then
    if P.unifs t < prob then
      { s2 with cur := prop,
                dist := fun l => if l = s2.whichSel then s2.dist l + 1 else s2.dist l,
                counter := s2.counter + 1 }
    else s2
  else
    if P.unifs t < prob then { s2 with cur := prop } else s2

/-- State after t raw steps of metropolis_uniform_cpp, starting from s0. -/
noncomputable def unStateAt (P : UNParams) (s0 : UNState) : ℕ → UNState
  | 0 => s0
  | t + 1 => rawStepUN P (unStateAt P s0 t) t

/-- Column i of the returned `steps` matrix (lines 219-222). -/
noncomputable def unSteps (P : UNParams) (cur0 : ℕ → ℤ) (i : ℕ) : ℕ → ℤ :=
  (unStateAt P (unInit P cur0) ((i + 1) * P.thin)).cur

/-- The returned accept_prob of metropolis_uniform_cpp. -/
noncomputable def unAcceptProb (P : UNParams) (cur0 : ℕ → ℤ) : ℝ :=
  (unStateAt P (unInit P cur0) (P.iter * P.thin)).acc

/-- Contents of the `current` vector of the caller when the function returns
(in-place writes at lines 199-201 / 210-212 alias the object of the caller). -/
noncomputable def unFinalCur (P : UNParams) (cur0 : ℕ → ℤ) : ℕ → ℤ :=
  (unStateAt P (unInit P cur0) (P.iter * P.thin)).cur

/- Helper lemmas about the raw-step functions. -/

theorem hgSelect_cur (P : HGParams) (s : HGState) (t : ℕ) :
    (hgSelect P s t).cur = s.cur := by
  unfold hgSelect
  by_cases hnu : P.non_uniform = true
  · simp only [if_pos hnu]
    cases selNU P.nMoves s.dist s.counter (P.unifs3 t) <;> rfl
  · simp only [if_neg hnu]

theorem hgSelect_acc (P : HGParams) (s : HGState) (t : ℕ) :
    (hgSelect P s t).acc = s.acc := by
  unfold hgSelect
  by_cases hnu : P.non_uniform = true
  · simp only [if_pos hnu]
    cases selNU P.nMoves s.dist s.counter (P.unifs3 t) <;> rfl
  · simp only [if_neg hnu]

theorem rawStepHG_cur (P : HGParams) (s : HGState) (t : ℕ) :
    (rawStepHG P s t).cur =
      if P.unifs t < transProbHG P.n (hgSelect P s t).cur (hgProposal P (hgSelect P s t) t)
      then hgProposal P (hgSelect P s t) t else s.cur := by
  unfold rawStepHG
  by_cases hnu : P.non_uniform = true
  · simp only [if_pos hnu]
    by_cases hacc : P.unifs t < transProbHG P.n (hgSelect P s t).cur (hgProposal P (hgSelect P s t) t)
    · simp only [if_pos hacc]
    · simp only [if_neg hacc]
      exact hgSelect_cur P s t
  · simp only [if_neg hnu]
    by_cases hacc : P.unifs t < transProbHG P.n (hgSelect P s t).cur (hgProposal P (hgSelect P s t) t)
    · simp only [if_pos hacc]
    · simp only [if_neg hacc]
      exact hgSelect_cur P s t

theorem rawStepHG_acc (P : HGParams) (s : HGState) (t : ℕ) :
    (rawStepHG P s t).acc =
      s.acc + transProbHG P.n (hgSelect P s t).cur (hgProposal P (hgSelect P s t) t) /
        ((P.iter * P.thin : ℕ) : ℝ) := by
  unfold rawStepHG
  by_cases hnu : P.non_uniform = true
  · simp only [if_pos hnu]
    by_cases hacc : P.unifs t < transProbHG P.n (hgSelect P s t).cur (hgProposal P (hgSelect P s t) t)
    · simp only [if_pos hacc, hgSelect_acc]
    · simp only [if_neg hacc, hgSelect_acc]
  · simp only [if_neg hnu]
    by_cases hacc : P.unifs t < transProbHG P.n (hgSelect P s t).cur (hgProposal P (hgSelect P s t) t)
    · simp only [if_pos hacc, hgSelect_acc]
    · simp only [if_neg hacc, hgSelect_acc]

theorem unSelect_cur (P : UNParams) (s : UNState) (t : ℕ) :
    (unSelect P s t).cur = s.cur := by
  unfold unSelect
  by_cases hnu : P.non_uniform = true
  · simp only [if_pos hnu]
    cases selNU P.nMoves s.dist s.counter (P.unifs3 t) <;> rfl
  · simp only [if_neg hnu]

theorem unSelect_acc (P : UNParams) (s : UNState) (t : ℕ) :
    (unSelect P s t).acc = s.acc := by
  unfold unSelect
  by_cases hnu : P.non_uniform = true
  · simp only [if_pos hnu]
    cases selNU P.nMoves s.dist s.counter (P.unifs3 t) <;> rfl
  · simp only [if_neg hnu]

theorem rawStepUN_cur (P : UNParams) (s : UNState) (t : ℕ) :
    (rawStepUN P s t).cur =
      if P.unifs t < transProbUN P.n (unProposal P (unSelect P s t) t)
      then unProposal P (unSelect P s t) t else s.cur := by
  unfold rawStepUN
  by_cases hnu : P.non_uniform = true
  · simp only [if_pos hnu]
    by_cases hacc : P.unifs t < transProbUN P.n (unProposal P (unSelect P s t) t)
    · simp only [if_pos hacc]
    · simp only [if_neg hacc]
      exact unSelect_cur P s t
  · simp only [if_neg hnu]
    by_cases hacc : P.unifs t < transProbUN P.n (unProposal P (unSelect P s t) t)
    · simp only [if_pos hacc]
    · simp only [if_neg hacc]
      exact unSelect_cur P s t

theorem rawStepUN_acc (P : UNParams) (s : UNState) (t : ℕ) :
    (rawStepUN P s t).acc =
      s.acc + transProbUN P.n (unProposal P (unSelect P s t) t) /
        ((P.iter * P.thin : ℕ) : ℝ) := by
  unfold rawStepUN
  by_cases hnu : P.non_uniform = true
  · simp only [if_pos hnu]
    by_cases hacc : P.unifs t < transProbUN P.n (unProposal P (unSelect P s t) t)
    · simp only [if_pos hacc, unSelect_acc]
    · simp only [if_neg hacc, unSelect_acc]
  · simp only [if_neg hnu]
    by_cases hacc : P.unifs t < transProbUN P.n (unProposal P (unSelect P s t) t)
    · simp only [if_pos hacc, unSelect_acc]
    · simp only [if_neg hacc, unSelect_acc]

/- Concrete instances used by the witness theorems. -/

/-- A minimal concrete parameter record for the hypergeometric driver:
one cell, one (zero) move, all strategy flags off, transition draws 2
(never below a probability), iter = thin = 1. -/
def hgP1 : HGParams :=
  { n := 1, nMoves := 1, moves := fun _ _ => 0, iter := 1, thin := 1,
    hit_and_run := false, SIS := false, non_uniform := false, adaptive := false,
    whichMove := fun _ => 1, unifs := fun _ => 2, unifs2 := fun _ => 2,
    unifs3 := fun _ => 2, sisTbl := fun _ _ => 0,
    hrFun := fun c _ _ => c, adFun := fun c _ _ => c }

/-- A minimal concrete parameter record for the uniform driver. -/
def unP1 : UNParams :=
  { n := 1, nMoves := 1, moves := fun _ _ => 0, iter := 1, thin := 1,
    hit_and_run := false, SIS := false, non_uniform := false, adaptive := false,
    whichMove := fun _ => 1, unifs := fun _ => 2, unifs2 := fun _ => 2,
    unifs3 := fun _ => 2, sisTbl := fun _ _ => 0,
    consts := fun _ _ => 1, runDraw := fun _ lb _ => lb, run0 := 0 }

/-- C1: in the hypergeometric chain, for every raw step whose candidate
table has all entries >= 0, the transition probability computed at lines
92-107 equals min(1, exp(sum lgamma(current_k+1) - sum lgamma(candidate_k+1))),
and that same value is the one compared against unifs[t] to decide
acceptance. -/
theorem c1_hg_acceptance (P : HGParams) (s : HGState) (t : ℕ)
    (h : ∀ k < P.n, 0 ≤ hgProposal P (hgSelect P s t) t k) :
    transProbHG P.n (hgSelect P s t).cur (hgProposal P (hgSelect P s t) t) =
      min 1 (Real.exp
        ((∑ k ∈ Finset.range P.n, lgamma (((hgSelect P s t).cur k : ℝ) + 1)) -
          ∑ k ∈ Finset.range P.n, lgamma ((hgProposal P (hgSelect P s t) t k : ℝ) + 1)))
    ∧ (rawStepHG P s t).cur =
      (if P.unifs t < transProbHG P.n (hgSelect P s t).cur (hgProposal P (hgSelect P s t) t)
       then hgProposal P (hgSelect P s t) t else s.cur) := by
  have hne : ¬ anyIsNegative P.n (hgProposal P (hgSelect P s t) t) := by
    rintro ⟨k, hk, hneg⟩
    exact absurd (h k hk) (by omega)
  exact ⟨transProbHG_of_nonneg _ hne, rawStepHG_cur P s t⟩

theorem c1_witness :
    (∀ k < hgP1.n, 0 ≤ hgProposal hgP1 (hgSelect hgP1 (hgInit hgP1 fun _ => 0) 0) 0 k) ∧
    (transProbHG hgP1.n (hgSelect hgP1 (hgInit hgP1 fun _ => 0) 0).cur
        (hgProposal hgP1 (hgSelect hgP1 (hgInit hgP1 fun _ => 0) 0) 0) =
      min 1 (Real.exp
        ((∑ k ∈ Finset.range hgP1.n,
            lgamma (((hgSelect hgP1 (hgInit hgP1 fun _ => 0) 0).cur k : ℝ) + 1)) -
          ∑ k ∈ Finset.range hgP1.n,
            lgamma ((hgProposal hgP1 (hgSelect hgP1 (hgInit hgP1 fun _ => 0) 0) 0 k : ℝ) + 1)))
    ∧ (rawStepHG hgP1 (hgInit hgP1 fun _ => 0) 0).cur =
      (if hgP1.unifs 0 < transProbHG hgP1.n (hgSelect hgP1 (hgInit hgP1 fun _ => 0) 0).cur
          (hgProposal hgP1 (hgSelect hgP1 (hgInit hgP1 fun _ => 0) 0) 0)
       then hgProposal hgP1 (hgSelect hgP1 (hgInit hgP1 fun _ => 0) 0) 0
       else (hgInit hgP1 fun _ => 0).cur)) := by
  have hw : ∀ k < hgP1.n, 0 ≤ hgProposal hgP1 (hgSelect hgP1 (hgInit hgP1 fun _ => 0) 0) 0 k := by
    intro k hk
    simp [hgProposal, hgBaseProposal, hgSelect, hgInit, hgP1]
  exact ⟨hw, c1_hg_acceptance hgP1 (hgInit hgP1 fun _ => 0) 0 hw⟩

/-- C2: in the uniform-target chain the transition probability is exactly 1
for a componentwise-nonnegative candidate and exactly 0 when some entry is
negative; the negative-entry gate yields probability 0 in the
hypergeometric computation as well; and every raw step of the uniform
driver decides acceptance by comparing unifs[t] with this probability. -/
theorem c2_un_prob (n : ℕ) (p : ℕ → ℤ) (cur : ℕ → ℤ) :
    ((∀ k < n, 0 ≤ p k) → transProbUN n p = 1) ∧
    ((∃ k < n, p k < 0) → transProbUN n p = 0 ∧ transProbHG n cur p = 0) ∧
    (∀ (Q : UNParams) (s : UNState) (t : ℕ), (rawStepUN Q s t).cur =
      (if Q.unifs t < transProbUN Q.n (unProposal Q (unSelect Q s t) t)
       then unProposal Q (unSelect Q s t) t else s.cur)) := by
  refine ⟨?_, ?_, fun Q s t => rawStepUN_cur Q s t⟩
  · intro h
    apply transProbUN_of_nonneg
    rintro ⟨k, hk, hneg⟩
    exact absurd (h k hk) (by omega)
  · intro h
    exact ⟨transProbUN_of_neg h, transProbHG_of_neg cur h⟩

theorem c2_witness :
    ((∀ k < 1, 0 ≤ (fun _ => (0:ℤ)) k) ∧ transProbUN 1 (fun _ => 0) = 1) ∧
    ((∃ k < 1, (fun _ => (-1:ℤ)) k < 0) ∧
      transProbUN 1 (fun _ => -1) = 0 ∧ transProbHG 1 (fun _ => 0) (fun _ => -1) = 0) := by
  have h1 : ∀ k < 1, 0 ≤ (fun _ => (0:ℤ)) k := by intro k _; norm_num
  have h2 : ∃ k < 1, (fun _ => (-1:ℤ)) k < 0 := ⟨0, by norm_num, by norm_num⟩
  exact ⟨⟨h1, (c2_un_prob 1 (fun _ => 0) (fun _ => 0)).1 h1⟩,
    ⟨h2, (c2_un_prob 1 (fun _ => -1) (fun _ => 0)).2.1 h2⟩⟩

/- Invariant helpers for C3. -/

theorem hgStateAt_cur_nonneg (P : HGParams) (s0 : HGState)
    (hu : ∀ t, 0 ≤ P.unifs t) (h0 : ∀ k < P.n, 0 ≤ s0.cur k) :
    ∀ t, ∀ k < P.n, 0 ≤ (hgStateAt P s0 t).cur k := by
  intro t
  induction t with
  | zero => exact h0
  | succ t ih =>
    intro k hk
    show 0 ≤ (rawStepHG P (hgStateAt P s0 t) t).cur k
    rw [rawStepHG_cur]
    by_cases hacc : P.unifs t < transProbHG P.n (hgSelect P (hgStateAt P s0 t) t).cur
        (hgProposal P (hgSelect P (hgStateAt P s0 t) t) t)
    · rw [if_pos hacc]
      by_cases hneg : anyIsNegative P.n (hgProposal P (hgSelect P (hgStateAt P s0 t) t) t)
      · rw [transProbHG_of_neg _ hneg] at hacc
        exact absurd hacc (not_lt.mpr (hu t))
      · by_contra hc
        exact hneg ⟨k, hk, by omega⟩
    · rw [if_neg hacc]
      exact ih k hk

theorem unStateAt_cur_nonneg (P : UNParams) (s0 : UNState)
    (hu : ∀ t, 0 ≤ P.unifs t) (h0 : ∀ k < P.n, 0 ≤ s0.cur k) :
    ∀ t, ∀ k < P.n, 0 ≤ (unStateAt P s0 t).cur k := by
  intro t
  induction t with
  | zero => exact h0
  | succ t ih =>
    intro k hk
    show 0 ≤ (rawStepUN P (unStateAt P s0 t) t).cur k
    rw [rawStepUN_cur]
    by_cases hacc : P.unifs t < transProbUN P.n (unProposal P (unSelect P (unStateAt P s0 t) t) t)
    · rw [if_pos hacc]
      by_cases hneg : anyIsNegative P.n (unProposal P (unSelect P (unStateAt P s0 t) t) t)
      · rw [transProbUN_of_neg hneg] at hacc
        exact absurd hacc (not_lt.mpr (hu t))
      · by_contra hc
        exact hneg ⟨k, hk, by omega⟩
    · rw [if_neg hacc]
      exact ih k hk

/-- C3: for both chain drivers, if the initial table is componentwise >= 0
and the transition draws are >= 0 (runif draws always are), the current
table stays componentwise >= 0 after every raw step, and hence every
recorded column of the steps matrix is componentwise >= 0. -/
theorem c3_nonneg_invariant (P : HGParams) (Q : UNParams) (c0 d0 : ℕ → ℤ)
    (huP : ∀ t, 0 ≤ P.unifs t) (huQ : ∀ t, 0 ≤ Q.unifs t)
    (hc0 : ∀ k < P.n, 0 ≤ c0 k) (hd0 : ∀ k < Q.n, 0 ≤ d0 k) :
    (∀ t, ∀ k < P.n, 0 ≤ (hgStateAt P (hgInit P c0) t).cur k) ∧
    (∀ t, ∀ k < Q.n, 0 ≤ (unStateAt Q (unInit Q d0) t).cur k) ∧
    (∀ i, ∀ k < P.n, 0 ≤ hgSteps P c0 i k) ∧
    (∀ i, ∀ k < Q.n, 0 ≤ unSteps Q d0 i k) := by
  have hP := hgStateAt_cur_nonneg P (hgInit P c0) huP hc0
  have hQ := unStateAt_cur_nonneg Q (unInit Q d0) huQ hd0
  exact ⟨hP, hQ, fun i => hP ((i + 1) * P.thin), fun i => hQ ((i + 1) * Q.thin)⟩

theorem c3_witness :
    ((∀ t, 0 ≤ hgP1.unifs t) ∧ (∀ t, 0 ≤ unP1.unifs t) ∧
      (∀ k < hgP1.n, 0 ≤ (fun _ => (0:ℤ)) k) ∧ (∀ k < unP1.n, 0 ≤ (fun _ => (0:ℤ)) k)) ∧
    ((∀ t, ∀ k < hgP1.n, 0 ≤ (hgStateAt hgP1 (hgInit hgP1 fun _ => 0) t).cur k) ∧
     (∀ t, ∀ k < unP1.n, 0 ≤ (unStateAt unP1 (unInit unP1 fun _ => 0) t).cur k) ∧
     (∀ i, ∀ k < hgP1.n, 0 ≤ hgSteps hgP1 (fun _ => 0) i k) ∧
     (∀ i, ∀ k < unP1.n, 0 ≤ unSteps unP1 (fun _ => 0) i k)) := by
  have h1 : ∀ t, 0 ≤ hgP1.unifs t := fun t => by norm_num [hgP1]
  have h2 : ∀ t, 0 ≤ unP1.unifs t := fun t => by norm_num [unP1]
  have h3 : ∀ k < hgP1.n, 0 ≤ (fun _ => (0:ℤ)) k := fun k _ => le_refl 0
  have h4 : ∀ k < unP1.n, 0 ≤ (fun _ => (0:ℤ)) k := fun k _ => le_refl 0
  exact ⟨⟨h1, h2, h3, h4⟩, c3_nonneg_invariant hgP1 unP1 (fun _ => 0) (fun _ => 0) h1 h2 h3 h4⟩

/- Acceptance-accumulator development for C9. -/

/-- The transition probability computed at raw step t of the
hypergeometric chain started from cur0. -/
noncomputable def hgStepProb (P : HGParams) (cur0 : ℕ → ℤ) (t : ℕ) : ℝ :=
  transProbHG P.n (hgSelect P (hgStateAt P (hgInit P cur0) t) t).cur
    (hgProposal P (hgSelect P (hgStateAt P (hgInit P cur0) t) t) t)

/-- The transition probability computed at raw step t of the uniform chain
started from cur0. -/
noncomputable def unStepProb (P : UNParams) (cur0 : ℕ → ℤ) (t : ℕ) : ℝ :=
  transProbUN P.n (unProposal P (unSelect P (unStateAt P (unInit P cur0) t) t) t)

theorem hgStateAt_acc (P : HGParams) (cur0 : ℕ → ℤ) (N : ℕ) :
    (hgStateAt P (hgInit P cur0) N).acc =
      (∑ t ∈ Finset.range N, hgStepProb P cur0 t) / ((P.iter * P.thin : ℕ) : ℝ) := by
  induction N with
  | zero => simp [hgStateAt, hgInit]
  | succ N ih =>
    show (rawStepHG P (hgStateAt P (hgInit P cur0) N) N).acc = _
    rw [rawStepHG_acc, ih, Finset.sum_range_succ, add_div]
    rfl

theorem unStateAt_acc (P : UNParams) (cur0 : ℕ → ℤ) (N : ℕ) :
    (unStateAt P (unInit P cur0) N).acc =
      (∑ t ∈ Finset.range N, unStepProb P cur0 t) / ((P.iter * P.thin : ℕ) : ℝ) := by
  induction N with
  | zero => simp [unStateAt, unInit]
  | succ N ih =>
    show (rawStepUN P (unStateAt P (unInit P cur0) N) N).acc = _
    rw [rawStepUN_acc, ih, Finset.sum_range_succ, add_div]
    rfl

/-- C9: for both drivers, the returned accept_prob is the sum over all
nTotalSamples = iter*thin raw steps of the transition probability computed
at that step, divided by nTotalSamples; the per-step recurrence shows the
contribution prob/nTotalSamples is added on every raw step, accepted or
not. -/
theorem c9_accept_prob (P : HGParams) (Q : UNParams) (c0 d0 : ℕ → ℤ) :
    (hgAcceptProb P c0 =
      (∑ t ∈ Finset.range (P.iter * P.thin), hgStepProb P c0 t) / ((P.iter * P.thin : ℕ) : ℝ)) ∧
    (∀ t, (hgStateAt P (hgInit P c0) (t + 1)).acc =
      (hgStateAt P (hgInit P c0) t).acc + hgStepProb P c0 t / ((P.iter * P.thin : ℕ) : ℝ)) ∧
    (unAcceptProb Q d0 =
      (∑ t ∈ Finset.range (Q.iter * Q.thin), unStepProb Q d0 t) / ((Q.iter * Q.thin : ℕ) : ℝ)) ∧
    (∀ t, (unStateAt Q (unInit Q d0) (t + 1)).acc =
      (unStateAt Q (unInit Q d0) t).acc + unStepProb Q d0 t / ((Q.iter * Q.thin : ℕ) : ℝ)) := by
  refine ⟨hgStateAt_acc P c0 (P.iter * P.thin), fun t => ?_,
    unStateAt_acc Q d0 (Q.iter * Q.thin), fun t => ?_⟩
  · show (rawStepHG P (hgStateAt P (hgInit P c0) t) t).acc = _
    rw [rawStepHG_acc]
    rfl
  · show (rawStepUN Q (unStateAt Q (unInit Q d0) t) t).acc = _
    rw [rawStepUN_acc]
    rfl

/-- C10: for both drivers, the caller-visible `current` vector on return
holds the final chain state, which is exactly the last recorded column
(index iter-1) of the returned steps matrix. -/
theorem c10_inplace_final (P : HGParams) (Q : UNParams) (c0 d0 : ℕ → ℤ)
    (hP : 1 ≤ P.iter) (hQ : 1 ≤ Q.iter) :
    hgFinalCur P c0 = hgSteps P c0 (P.iter - 1) ∧
    unFinalCur Q d0 = unSteps Q d0 (Q.iter - 1) := by
  constructor
  · unfold hgFinalCur hgSteps
    have he : P.iter - 1 + 1 = P.iter := by omega
    rw [he]
  · unfold unFinalCur unSteps
    have he : Q.iter - 1 + 1 = Q.iter := by omega
    rw [he]

theorem c10_witness :
    (1 ≤ hgP1.iter ∧ 1 ≤ unP1.iter) ∧
    (hgFinalCur hgP1 (fun _ => 0) = hgSteps hgP1 (fun _ => 0) (hgP1.iter - 1) ∧
     unFinalCur unP1 (fun _ => 0) = unSteps unP1 (fun _ => 0) (unP1.iter - 1)) :=
  ⟨⟨by decide, by decide⟩,
    c10_inplace_final hgP1 unP1 (fun _ => 0) (fun _ => 0) (by decide) (by decide)⟩

/-- C8: with SIS enabled, raw step (i, j) (global index t = thin*i + j)
substitutes the sis_tbl fiber-sampler table for the candidate exactly when
the i-th entry of the dedicated stream unifs2 is below the fixed threshold
(.01 in the hypergeometric chain, .05 in the uniform chain); the trigger
reads unifs2 at index i = t/thin only, so it is identical for all thin
sub-steps j, j2 of outer iteration i. -/
theorem c8_sis_trigger (P : HGParams) (Q : UNParams) (sP : HGState) (sQ : UNState)
    (i j j2 : ℕ) (hjP : j < P.thin) (hj2P : j2 < P.thin)
    (hjQ : j < Q.thin) (hj2Q : j2 < Q.thin)
    (hsisP : P.SIS = true) (hsisQ : Q.SIS = true) :
    (hgProposal P sP (P.thin * i + j) =
      if P.unifs2 i < 1 / 100 then P.sisTbl (P.thin * i + j)
      else hgBaseProposal P sP (P.thin * i + j)) ∧
    (unProposal Q sQ (Q.thin * i + j) =
      if Q.unifs2 i < 5 / 100 then Q.sisTbl (Q.thin * i + j)
      else (unPrePair Q sQ (Q.thin * i + j)).1) ∧
    ((P.unifs2 ((P.thin * i + j) / P.thin) < 1 / 100) ↔
      (P.unifs2 ((P.thin * i + j2) / P.thin) < 1 / 100)) ∧
    ((Q.unifs2 ((Q.thin * i + j) / Q.thin) < 5 / 100) ↔
      (Q.unifs2 ((Q.thin * i + j2) / Q.thin) < 5 / 100)) := by
  have hdP : ∀ jj, jj < P.thin → (P.thin * i + jj) / P.thin = i := by
    intro jj hjj
    rw [Nat.mul_add_div (by omega), Nat.div_eq_of_lt hjj, Nat.add_zero]
  have hdQ : ∀ jj, jj < Q.thin → (Q.thin * i + jj) / Q.thin = i := by
    intro jj hjj
    rw [Nat.mul_add_div (by omega), Nat.div_eq_of_lt hjj, Nat.add_zero]
  refine ⟨?_, ?_, by rw [hdP j hjP, hdP j2 hj2P], by rw [hdQ j hjQ, hdQ j2 hj2Q]⟩
  · unfold hgProposal
    rw [hdP j hjP]
    by_cases hcond : P.unifs2 i < 1 / 100
    · rw [if_pos ⟨hsisP, hcond⟩, if_pos hcond]
    · rw [if_neg (fun hc => hcond hc.2), if_neg hcond]
  · unfold unProposal
    rw [hdQ j hjQ]
    by_cases hcond : Q.unifs2 i < 5 / 100
    · rw [if_pos ⟨hsisQ, hcond⟩, if_pos hcond]
    · rw [if_neg (fun hc => hcond hc.2), if_neg hcond]

/-- hgP1 with SIS enabled and a triggering unifs2 stream. -/
def hgP2sis : HGParams :=
  { hgP1 with SIS := true, unifs2 := fun _ => 0 }

/-- unP1 with SIS enabled and a triggering unifs2 stream. -/
def unP2sis : UNParams :=
  { unP1 with SIS := true, unifs2 := fun _ => 0 }

theorem c8_witness :
    ((0 : ℕ) < hgP2sis.thin ∧ (0 : ℕ) < unP2sis.thin) ∧
    ((hgProposal hgP2sis (hgInit hgP2sis fun _ => 0) (hgP2sis.thin * 0 + 0) =
      if hgP2sis.unifs2 0 < 1 / 100 then hgP2sis.sisTbl (hgP2sis.thin * 0 + 0)
      else hgBaseProposal hgP2sis (hgInit hgP2sis fun _ => 0) (hgP2sis.thin * 0 + 0)) ∧
    (unProposal unP2sis (unInit unP2sis fun _ => 0) (unP2sis.thin * 0 + 0) =
      if unP2sis.unifs2 0 < 5 / 100 then unP2sis.sisTbl (unP2sis.thin * 0 + 0)
      else (unPrePair unP2sis (unInit unP2sis fun _ => 0) (unP2sis.thin * 0 + 0)).1) ∧
    ((hgP2sis.unifs2 ((hgP2sis.thin * 0 + 0) / hgP2sis.thin) < 1 / 100) ↔
      (hgP2sis.unifs2 ((hgP2sis.thin * 0 + 0) / hgP2sis.thin) < 1 / 100)) ∧
    ((unP2sis.unifs2 ((unP2sis.thin * 0 + 0) / unP2sis.thin) < 5 / 100) ↔
      (unP2sis.unifs2 ((unP2sis.thin * 0 + 0) / unP2sis.thin) < 5 / 100))) :=
  ⟨⟨by decide, by decide⟩,
    c8_sis_trigger hgP2sis unP2sis (hgInit hgP2sis fun _ => 0) (unInit unP2sis fun _ => 0)
      0 0 0 (by decide) (by decide) (by decide) (by decide) rfl rfl⟩

/- Weighted-selection helpers for C7. -/

theorem hgSelect_eq_of_some (P : HGParams) (s : HGState) (t : ℕ) (l : ℕ)
    (hnu : P.non_uniform = true)
    (hsel : selNU P.nMoves s.dist s.counter (P.unifs3 t) = some l) :
    hgSelect P s t = { s with mov := fun k => P.moves k l, whichSel := l } := by
  unfold hgSelect
  rw [if_pos hnu, hsel]

theorem unSelect_eq_of_some (P : UNParams) (s : UNState) (t : ℕ) (l : ℕ)
    (hnu : P.non_uniform = true)
    (hsel : selNU P.nMoves s.dist s.counter (P.unifs3 t) = some l) :
    unSelect P s t = { s with mov := fun k => P.moves k l, whichSel := l } := by
  unfold unSelect
  rw [if_pos hnu, hsel]

theorem hgProposal_nonuniform (P : HGParams) (s : HGState) (t : ℕ)
    (hnu : P.non_uniform = true) (hsis : P.SIS = false) :
    hgProposal P s t = fun k => s.cur k + s.mov k := by
  unfold hgProposal hgBaseProposal
  rw [hsis, if_neg (fun hc => Bool.false_ne_true hc.1), if_pos hnu]

theorem unProposal_nonuniform (P : UNParams) (s : UNState) (t : ℕ)
    (hnu : P.non_uniform = true) (hsis : P.SIS = false) :
    unProposal P s t = fun k => s.cur k + s.mov k := by
  unfold unProposal unPrePair
  rw [hsis, if_neg (fun hc => Bool.false_ne_true hc.1), if_pos hnu]

theorem rawStepHG_weights (P : HGParams) (s : HGState) (t : ℕ) (hnu : P.non_uniform = true) :
    (P.unifs t < transProbHG P.n (hgSelect P s t).cur (hgProposal P (hgSelect P s t) t) →
      (rawStepHG P s t).dist = (fun m => if m = (hgSelect P s t).whichSel
          then (hgSelect P s t).dist m + 1 else (hgSelect P s t).dist m) ∧
      (rawStepHG P s t).counter = (hgSelect P s t).counter + 1) ∧
    (¬ P.unifs t < transProbHG P.n (hgSelect P s t).cur (hgProposal P (hgSelect P s t) t) →
      (rawStepHG P s t).dist = (hgSelect P s t).dist ∧
      (rawStepHG P s t).counter = (hgSelect P s t).counter) := by
  constructor
  · intro hacc
    unfold rawStepHG
    simp only [if_pos hnu, if_pos hacc]
    exact ⟨trivial, trivial⟩
  · intro hacc
    unfold rawStepHG
    simp only [if_pos hnu, if_neg hacc]
    exact ⟨trivial, trivial⟩

theorem rawStepUN_weights (P : UNParams) (s : UNState) (t : ℕ) (hnu : P.non_uniform = true) :
    (P.unifs t < transProbUN P.n (unProposal P (unSelect P s t) t) →
      (rawStepUN P s t).dist = (fun m => if m = (unSelect P s t).whichSel
          then (unSelect P s t).dist m + 1 else (unSelect P s t).dist m) ∧
      (rawStepUN P s t).counter = (unSelect P s t).counter + 1) ∧
    (¬ P.unifs t < transProbUN P.n (unProposal P (unSelect P s t) t) →
      (rawStepUN P s t).dist = (unSelect P s t).dist ∧
      (rawStepUN P s t).counter = (unSelect P s t).counter) := by
  constructor
  · intro hacc
    unfold rawStepUN
    simp only [if_pos hnu, if_pos hacc]
    exact ⟨trivial, trivial⟩
  · intro hacc
    unfold rawStepUN
    simp only [if_pos hnu, if_neg hacc]
    exact ⟨trivial, trivial⟩

/-- C7: under the non_uniform strategy, in both drivers: the per-move
weights start at 1 each; the selected index is the first l whose scaled
cumulative weight covers the categorical draw unifs3[t] (inverse-CDF
sampling, i.e. selection with probability proportional to the weights);
the candidate is current + move; and exactly on acceptance the selected
weight of that move and the total normalizer are each incremented by 1. -/
theorem c7_weighted_selection (P : HGParams) (Q : UNParams) (c0 d0 : ℕ → ℤ)
    (s : HGState) (sq : UNState) (t : ℕ) (l : ℕ)
    (hnuP : P.non_uniform = true) (hnuQ : Q.non_uniform = true)
    (hsisP : P.SIS = false) (hsisQ : Q.SIS = false) :
    ((hgInit P c0).dist = fun _ => (1:ℝ)) ∧
    ((unInit Q d0).dist = fun _ => (1:ℝ)) ∧
    (selNU P.nMoves s.dist s.counter (P.unifs3 t) = some l ↔
      (l < P.nMoves ∧ P.unifs3 t ≤ cumsum s.dist l / s.counter ∧
        ∀ m < l, ¬ P.unifs3 t ≤ cumsum s.dist m / s.counter)) ∧
    (selNU P.nMoves s.dist s.counter (P.unifs3 t) = some l →
      hgProposal P (hgSelect P s t) t = fun k => s.cur k + P.moves k l) ∧
    (selNU Q.nMoves sq.dist sq.counter (Q.unifs3 t) = some l →
      unProposal Q (unSelect Q sq t) t = fun k => sq.cur k + Q.moves k l) ∧
    (selNU P.nMoves s.dist s.counter (P.unifs3 t) = some l →
      ((P.unifs t < transProbHG P.n s.cur (hgProposal P (hgSelect P s t) t) →
          (rawStepHG P s t).dist l = s.dist l + 1 ∧
          (∀ m, m ≠ l → (rawStepHG P s t).dist m = s.dist m) ∧
          (rawStepHG P s t).counter = s.counter + 1) ∧
        (¬ P.unifs t < transProbHG P.n s.cur (hgProposal P (hgSelect P s t) t) →
          (rawStepHG P s t).dist = s.dist ∧ (rawStepHG P s t).counter = s.counter))) ∧
    (selNU Q.nMoves sq.dist sq.counter (Q.unifs3 t) = some l →
      ((Q.unifs t < transProbUN Q.n (unProposal Q (unSelect Q sq t) t) →
          (rawStepUN Q sq t).dist l = sq.dist l + 1 ∧
          (∀ m, m ≠ l → (rawStepUN Q sq t).dist m = sq.dist m) ∧
          (rawStepUN Q sq t).counter = sq.counter + 1) ∧
        (¬ Q.unifs t < transProbUN Q.n (unProposal Q (unSelect Q sq t) t) →
          (rawStepUN Q sq t).dist = sq.dist ∧ (rawStepUN Q sq t).counter = sq.counter))) := by
  refine ⟨rfl, rfl, selNU_eq_some P.nMoves s.dist s.counter (P.unifs3 t) l, ?_, ?_, ?_, ?_⟩
  · intro hsel
    rw [hgSelect_eq_of_some P s t l hnuP hsel, hgProposal_nonuniform P _ t hnuP hsisP]
  · intro hsel
    rw [unSelect_eq_of_some Q sq t l hnuQ hsel, unProposal_nonuniform Q _ t hnuQ hsisQ]
  · intro hsel
    have hse := hgSelect_eq_of_some P s t l hnuP hsel
    have hw := rawStepHG_weights P s t hnuP
    rw [hse] at hw
    constructor
    · intro hacc
      rw [hse] at hacc
      obtain ⟨hd, hc⟩ := hw.1 hacc
      refine ⟨by rw [hd]; simp, fun m hm => by rw [hd]; simp [hm], hc⟩
    · intro hacc
      rw [hse] at hacc
      obtain ⟨hd, hc⟩ := hw.2 hacc
      exact ⟨hd, hc⟩
  · intro hsel
    have hse := unSelect_eq_of_some Q sq t l hnuQ hsel
    have hw := rawStepUN_weights Q sq t hnuQ
    rw [hse] at hw
    constructor
    · intro hacc
      rw [hse] at hacc
      obtain ⟨hd, hc⟩ := hw.1 hacc
      refine ⟨by rw [hd]; simp, fun m hm => by rw [hd]; simp [hm], hc⟩
    · intro hacc
      rw [hse] at hacc
      obtain ⟨hd, hc⟩ := hw.2 hacc
      exact ⟨hd, hc⟩

/-- hgP1 with the non-uniform weighted strategy enabled and a categorical
draw of 1/2. -/
noncomputable def hgP3 : HGParams :=
  { hgP1 with non_uniform := true, unifs3 := fun _ => 1 / 2 }

/-- unP1 with the non-uniform weighted strategy enabled and a categorical
draw of 1/2. -/
noncomputable def unP3 : UNParams :=
  { unP1 with non_uniform := true, unifs3 := fun _ => 1 / 2 }

theorem c7_witness :
    (hgP3.non_uniform = true ∧ unP3.non_uniform = true ∧
      hgP3.SIS = false ∧ unP3.SIS = false) ∧
    (((hgInit hgP3 fun _ => 0).dist = fun _ => (1:ℝ)) ∧
    ((unInit unP3 fun _ => 0).dist = fun _ => (1:ℝ)) ∧
    (selNU hgP3.nMoves (hgInit hgP3 fun _ => 0).dist (hgInit hgP3 fun _ => 0).counter
        (hgP3.unifs3 0) = some 0 ↔
      (0 < hgP3.nMoves ∧
        hgP3.unifs3 0 ≤ cumsum (hgInit hgP3 fun _ => 0).dist 0 / (hgInit hgP3 fun _ => 0).counter ∧
        ∀ m < 0, ¬ hgP3.unifs3 0 ≤ cumsum (hgInit hgP3 fun _ => 0).dist m /
          (hgInit hgP3 fun _ => 0).counter)) ∧
    (selNU hgP3.nMoves (hgInit hgP3 fun _ => 0).dist (hgInit hgP3 fun _ => 0).counter
        (hgP3.unifs3 0) = some 0 →
      hgProposal hgP3 (hgSelect hgP3 (hgInit hgP3 fun _ => 0) 0) 0 =
        fun k => (hgInit hgP3 fun _ => 0).cur k + hgP3.moves k 0) ∧
    (selNU unP3.nMoves (unInit unP3 fun _ => 0).dist (unInit unP3 fun _ => 0).counter
        (unP3.unifs3 0) = some 0 →
      unProposal unP3 (unSelect unP3 (unInit unP3 fun _ => 0) 0) 0 =
        fun k => (unInit unP3 fun _ => 0).cur k + unP3.moves k 0) ∧
    (selNU hgP3.nMoves (hgInit hgP3 fun _ => 0).dist (hgInit hgP3 fun _ => 0).counter
        (hgP3.unifs3 0) = some 0 →
      ((hgP3.unifs 0 < transProbHG hgP3.n (hgInit hgP3 fun _ => 0).cur
          (hgProposal hgP3 (hgSelect hgP3 (hgInit hgP3 fun _ => 0) 0) 0) →
          (rawStepHG hgP3 (hgInit hgP3 fun _ => 0) 0).dist 0 = (hgInit hgP3 fun _ => 0).dist 0 + 1 ∧
          (∀ m, m ≠ 0 → (rawStepHG hgP3 (hgInit hgP3 fun _ => 0) 0).dist m =
            (hgInit hgP3 fun _ => 0).dist m) ∧
          (rawStepHG hgP3 (hgInit hgP3 fun _ => 0) 0).counter = (hgInit hgP3 fun _ => 0).counter + 1) ∧
        (¬ hgP3.unifs 0 < transProbHG hgP3.n (hgInit hgP3 fun _ => 0).cur
          (hgProposal hgP3 (hgSelect hgP3 (hgInit hgP3 fun _ => 0) 0) 0) →
          (rawStepHG hgP3 (hgInit hgP3 fun _ => 0) 0).dist = (hgInit hgP3 fun _ => 0).dist ∧
          (rawStepHG hgP3 (hgInit hgP3 fun _ => 0) 0).counter = (hgInit hgP3 fun _ => 0).counter))) ∧
    (selNU unP3.nMoves (unInit unP3 fun _ => 0).dist (unInit unP3 fun _ => 0).counter
        (unP3.unifs3 0) = some 0 →
      ((unP3.unifs 0 < transProbUN unP3.n
          (unProposal unP3 (unSelect unP3 (unInit unP3 fun _ => 0) 0) 0) →
          (rawStepUN unP3 (unInit unP3 fun _ => 0) 0).dist 0 = (unInit unP3 fun _ => 0).dist 0 + 1 ∧
          (∀ m, m ≠ 0 → (rawStepUN unP3 (unInit unP3 fun _ => 0) 0).dist m =
            (unInit unP3 fun _ => 0).dist m) ∧
          (rawStepUN unP3 (unInit unP3 fun _ => 0) 0).counter = (unInit unP3 fun _ => 0).counter + 1) ∧
        (¬ unP3.unifs 0 < transProbUN unP3.n
          (unProposal unP3 (unSelect unP3 (unInit unP3 fun _ => 0) 0) 0) →
          (rawStepUN unP3 (unInit unP3 fun _ => 0) 0).dist = (unInit unP3 fun _ => 0).dist ∧
          (rawStepUN unP3 (unInit unP3 fun _ => 0) 0).counter = (unInit unP3 fun _ => 0).counter)))) :=
  ⟨⟨rfl, rfl, rfl, rfl⟩,
    c7_weighted_selection hgP3 unP3 (fun _ => 0) (fun _ => 0)
      (hgInit hgP3 fun _ => 0) (unInit unP3 fun _ => 0) 0 0 rfl rfl rfl rfl⟩

/- Truncated-division feasibility lemmas for the hit-and-run range (C4). -/

theorem tdiv_le_feasible (c m t : ℤ) (hc : 0 ≤ c) (hm : 0 < m)
    (h : Int.tdiv (-c) m ≤ t) : 0 ≤ c + t * m := by
  rw [Int.neg_tdiv, Int.tdiv_eq_ediv hc hm.le] at h
  nlinarith [Int.ediv_mul_le c hm.ne.symm, mul_le_mul_of_nonneg_right h hm.le]

theorem le_tdiv_feasible (c m t : ℤ) (hc : 0 ≤ c) (hm : m < 0)
    (h : t ≤ Int.tdiv (-c) m) : 0 ≤ c + t * m := by
  have h1 : Int.tdiv (-c) m = c.tdiv (-m) := by
    rw [Int.neg_tdiv, Int.tdiv_neg]
  rw [h1, Int.tdiv_eq_ediv hc (by omega)] at h
  nlinarith [Int.ediv_mul_le c (by omega : -m ≠ 0),
    mul_le_mul_of_nonneg_right h (by omega : (0:ℤ) ≤ -m)]

theorem tdiv_nonpos_of_pos (c m : ℤ) (hc : 0 ≤ c) (hm : 0 < m) :
    Int.tdiv (-c) m ≤ 0 := by
  rw [Int.neg_tdiv]
  simp only [neg_nonpos]
  exact Int.tdiv_nonneg hc hm.le

theorem tdiv_nonneg_of_neg (c m : ℤ) (hc : 0 ≤ c) (hm : m < 0) :
    0 ≤ Int.tdiv (-c) m := by
  have h1 : Int.tdiv (-c) m = c.tdiv (-m) := by
    rw [Int.neg_tdiv, Int.tdiv_neg]
  rw [h1]
  exact Int.tdiv_nonneg hc (by omega)

theorem mem_hnrStepList (n : ℕ) (cur mov : ℕ → ℤ) (k : ℕ) (hk : k < n)
    (hm : mov k ≠ 0) : Int.tdiv (-(cur k)) (mov k) ∈ hnrStepList n cur mov := by
  unfold hnrStepList
  apply List.mem_map_of_mem
  rw [List.mem_filter]
  exact ⟨List.mem_range.mpr hk, by simpa using hm⟩

/-- C4 counterexample input: current = (1, 4, 4). -/
def c4cur : ℕ → ℤ := fun k => [1, 4, 4].getD k 0

/-- C4 counterexample input: move = (2, -2, 2). -/
def c4mov : ℕ → ℤ := fun k => [2, -2, 2].getD k 0

/-- C4 counterexample: for the feasible current (1,4,4) and the move
(2,-2,2) (nonzero in every coordinate), the computed raw range of lines
83-90 is [lb, ub] = [-2, 2], yet the multiplier t = -1 inside it drives
entry 0 to 1 - 2 = -1 < 0: stepSize[0] = (-1)/2 truncates to 0, so
coordinate 0 constrains neither bound.  The claim as stated is false. -/
theorem c4_counterexample :
    (∀ k < 3, 0 ≤ c4cur k) ∧ (∃ k < 3, c4mov k ≠ 0) ∧
    hnrLb 3 c4cur c4mov = -2 ∧ hnrUb 3 c4cur c4mov = 2 ∧
    (hnrLb 3 c4cur c4mov ≤ -1 ∧ -1 ≤ hnrUb 3 c4cur c4mov) ∧
    ¬ (∀ k < 3, 0 ≤ c4cur k + (-1) * c4mov k) := by decide

/-- C4 (amended): the hit-and-run range of lines 83-90 contains 0 and is
feasible throughout, provided additionally that no per-coordinate stepSize
value is 0 (i.e. current_k >= |move_k| wherever move_k != 0) and that both
the negative-step and the positive-step vectors are nonempty (Rcpp max/min
on an empty vector read out of bounds, so lb/ub are unspecified there). -/
theorem c4_range_feasible (n : ℕ) (cur mov : ℕ → ℤ)
    (hcur : ∀ k < n, 0 ≤ cur k)
    (hz : 0 ∉ hnrStepList n cur mov)
    (hlb : (hnrStepList n cur mov).filter (fun x => x < 0) ≠ [])
    (hub : (hnrStepList n cur mov).filter (fun x => 0 < x) ≠ []) :
    hnrLb n cur mov ≤ 0 ∧ 0 ≤ hnrUb n cur mov ∧
    ∀ t : ℤ, hnrLb n cur mov ≤ t → t ≤ hnrUb n cur mov →
      ∀ k < n, 0 ≤ cur k + t * mov k := by
  have hlbmem := rcppMax_mem hlb
  have hubmem := rcppMin_mem hub
  rw [List.mem_filter] at hlbmem hubmem
  have hlbneg : hnrLb n cur mov < 0 := by
    have := hlbmem.2
    unfold hnrLb
    simpa using this
  have hubpos : 0 < hnrUb n cur mov := by
    have := hubmem.2
    unfold hnrUb
    simpa using this
  refine ⟨hlbneg.le, hubpos.le, fun t ht1 ht2 k hk => ?_⟩
  by_cases hm : mov k = 0
  · rw [hm]
    simpa using hcur k hk
  · have hmem := mem_hnrStepList n cur mov k hk hm
    have hne : Int.tdiv (-(cur k)) (mov k) ≠ 0 := fun he => hz (he ▸ hmem)
    rcases lt_or_gt_of_ne hm with hneg | hpos
    · -- mov k < 0: the step value is positive, so it bounds ub from above
      have hstep : 0 < Int.tdiv (-(cur k)) (mov k) := by
        rcases (tdiv_nonneg_of_neg (cur k) (mov k) (hcur k hk) hneg).lt_or_eq with h | h
        · exact h
        · exact absurd h.symm hne
      have hmemub : Int.tdiv (-(cur k)) (mov k) ∈
          (hnrStepList n cur mov).filter (fun x => 0 < x) := by
        rw [List.mem_filter]
        exact ⟨hmem, by simpa using hstep⟩
      have hble : hnrUb n cur mov ≤ Int.tdiv (-(cur k)) (mov k) := rcppMin_le hmemub
      exact le_tdiv_feasible (cur k) (mov k) t (hcur k hk) hneg (le_trans ht2 hble)
    · -- mov k > 0: the step value is negative, so it bounds lb from below
      have hstep : Int.tdiv (-(cur k)) (mov k) < 0 := by
        rcases (tdiv_nonpos_of_pos (cur k) (mov k) (hcur k hk) hpos).lt_or_eq with h | h
        · exact h
        · exact absurd h hne
      have hmemlb : Int.tdiv (-(cur k)) (mov k) ∈
          (hnrStepList n cur mov).filter (fun x => x < 0) := by
        rw [List.mem_filter]
        exact ⟨hmem, by simpa using hstep⟩
      have hble : Int.tdiv (-(cur k)) (mov k) ≤ hnrLb n cur mov := le_rcppMax hmemlb
      exact tdiv_le_feasible (cur k) (mov k) t (hcur k hk) hpos (le_trans hble ht1)

/-- C4 witness input: current = (2, 2). -/
def c4wcur : ℕ → ℤ := fun k => [2, 2].getD k 0

/-- C4 witness input: move = (1, -1). -/
def c4wmov : ℕ → ℤ := fun k => [1, -1].getD k 0

theorem c4_witness :
    ((∀ k < 2, 0 ≤ c4wcur k) ∧ 0 ∉ hnrStepList 2 c4wcur c4wmov ∧
      (hnrStepList 2 c4wcur c4wmov).filter (fun x => x < 0) ≠ [] ∧
      (hnrStepList 2 c4wcur c4wmov).filter (fun x => 0 < x) ≠ []) ∧
    (hnrLb 2 c4wcur c4wmov ≤ 0 ∧ 0 ≤ hnrUb 2 c4wcur c4wmov ∧
      ∀ t : ℤ, hnrLb 2 c4wcur c4wmov ≤ t → t ≤ hnrUb 2 c4wcur c4wmov →
        ∀ k < 2, 0 ≤ c4wcur k + t * c4wmov k) :=
  ⟨⟨by decide, by decide, by decide, by decide⟩,
    c4_range_feasible 2 c4wcur c4wmov (by decide) (by decide) (by decide) (by decide)⟩

/-- C6: in the non-adaptive hit-and-run strategy, a degenerate range
lb > ub makes the step multiplier fall back to the unit step 1; the
selected multiplier is never 0 (a drawn 0 is replaced by 1); the condition
is recovered locally - the branch still returns a well-formed candidate
`current + t * move` built from the fallback multiplier - rather than
raised as an error. -/
theorem c6_degenerate_fallback (P : UNParams) (s : UNState) (t : ℕ) (lb ub : ℤ)
    (had : P.adaptive = false) :
    (lb > ub → runSelect P t lb ub = 1) ∧
    runSelect P t lb ub ≠ 0 ∧
    (¬ lb > ub → P.runDraw t lb ub = 0 → runSelect P t lb ub = 1) ∧
    (unHitAndRun P s t =
      ((fun k => s.cur k + runSelect P t (hnrLbPatch P s) (hnrUbPatch P s) * s.mov k),
        runSelect P t (hnrLbPatch P s) (hnrUbPatch P s))) ∧
    (unHitAndRun P s t).2 ≠ 0 := by
  have hne : ∀ a b : ℤ, runSelect P t a b ≠ 0 := by
    intro a b
    unfold runSelect
    by_cases h0 : (if a > b then (1:ℤ) else P.runDraw t a b) = 0
    · rw [if_pos h0]
      norm_num
    · rw [if_neg h0]
      exact h0
  have hpair : unHitAndRun P s t =
      ((fun k => s.cur k + runSelect P t (hnrLbPatch P s) (hnrUbPatch P s) * s.mov k),
        runSelect P t (hnrLbPatch P s) (hnrUbPatch P s)) := by
    unfold unHitAndRun
    rw [if_neg (fun hc => by rw [had] at hc; exact Bool.false_ne_true hc)]
  refine ⟨?_, hne lb ub, ?_, hpair, ?_⟩
  · intro hgt
    unfold runSelect
    rw [if_pos hgt]
    norm_num
  · intro hngt hdraw
    unfold runSelect
    rw [if_neg hngt, hdraw]
    norm_num
  · rw [hpair]
    exact hne _ _

theorem c6_witness :
    (unP1.adaptive = false) ∧
    ((2 > (1:ℤ) → runSelect unP1 0 2 1 = 1) ∧
    runSelect unP1 0 2 1 ≠ 0 ∧
    (¬ 2 > (1:ℤ) → unP1.runDraw 0 2 1 = 0 → runSelect unP1 0 2 1 = 1) ∧
    (unHitAndRun unP1 (unInit unP1 fun _ => 0) 0 =
      ((fun k => (unInit unP1 fun _ => 0).cur k +
          runSelect unP1 0 (hnrLbPatch unP1 (unInit unP1 fun _ => 0))
            (hnrUbPatch unP1 (unInit unP1 fun _ => 0)) * (unInit unP1 fun _ => 0).mov k),
        runSelect unP1 0 (hnrLbPatch unP1 (unInit unP1 fun _ => 0))
          (hnrUbPatch unP1 (unInit unP1 fun _ => 0)))) ∧
    (unHitAndRun unP1 (unInit unP1 fun _ => 0) 0).2 ≠ 0) :=
  ⟨rfl, c6_degenerate_fallback unP1 (unInit unP1 fun _ => 0) 0 2 1 rfl⟩

/- Adaptive sub-chain lemmas for C5. -/

theorem adaptSubStep_of_one_le (n : ℕ) (mov : ℕ → ℤ) (c : ℤ) (u : ℝ) (w : ℕ → ℤ)
    (hu : 1 ≤ u) : adaptSubStep n mov c u w = w := by
  unfold adaptSubStep
  rw [if_neg (not_lt.mpr (le_trans (transProbHG_le_one _ _ _) hu))]

theorem adaptBlock_of_one_le (n : ℕ) (mov : ℕ → ℤ) (consts : ℕ → ℤ) (unifs : ℕ → ℝ)
    (cur : ℕ → ℤ) (len : ℕ) (hu : ∀ l, 1 ≤ unifs l) :
    adaptBlock n mov consts unifs cur len = cur := by
  unfold adaptBlock
  induction len with
  | zero => rfl
  | succ m ih =>
    rw [List.range_succ, List.foldl_append, ih]
    simp only [List.foldl_cons, List.foldl_nil]
    exact adaptSubStep_of_one_le n mov (consts m) (unifs m) cur (hu m)

/-- C5 failing input, parameters: uniform driver with hit_and_run and
adaptive enabled, the single move (1, -1), sub-chain sign draws +1,
transition draws 2 (so no sub-step is ever accepted), and stale
run value 5. -/
def c5P : UNParams :=
  { n := 2, nMoves := 1, moves := fun k _ => [1, -1].getD k 0, iter := 1, thin := 1,
    hit_and_run := true, SIS := false, non_uniform := false, adaptive := true,
    whichMove := fun _ => 1, unifs := fun _ => 2, unifs2 := fun _ => 2,
    unifs3 := fun _ => 2, sisTbl := fun _ _ => 0,
    consts := fun _ _ => 1, runDraw := fun _ lb _ => lb, run0 := 5 }

/-- C5 failing input, loop state: current = (2, 2), selected move (1, -1),
run = 5 (never assigned on any adaptive step; as<int> of the empty `run`
vector in the C++ source). -/
def c5s : UNState :=
  { cur := fun k => [2, 2].getD k 0, dist := fun _ => 1, counter := 1, whichSel := 0,
    mov := fun k => [1, -1].getD k 0, run := 5, acc := 0 }

/-- C5 (code bug): at the failing input, the adaptive sub-chain of lines
92-127 rejects every sub-proposal, so its final state (stored into
`proposal` at lines 128-130) equals current, with entry 1 equal to 2; but
the unconditional overwrite at lines 159-163 makes the outer candidate
`current + run * move` with the stale run = 5, whose entry 1 is
2 + 5*(-1) = -3.  The candidate handed to the acceptance engine is not the
final state of the sub-chain, contradicting the claim (and making lines 92-135
dead code). -/
theorem c5_candidate_not_subchain :
    adaptBlock c5P.n c5s.mov (c5P.consts 0) c5P.unifs c5s.cur
      (hnrUb c5P.n c5s.cur c5s.mov - hnrLb c5P.n c5s.cur c5s.mov).toNat 1 = 2 ∧
    (unHitAndRun c5P c5s 0).1 1 = -3 ∧
    (unHitAndRun c5P c5s 0).1 1 ≠
      adaptBlock c5P.n c5s.mov (c5P.consts 0) c5P.unifs c5s.cur
        (hnrUb c5P.n c5s.cur c5s.mov - hnrLb c5P.n c5s.cur c5s.mov).toNat 1 := by
  have hb : adaptBlock c5P.n c5s.mov (c5P.consts 0) c5P.unifs c5s.cur
      (hnrUb c5P.n c5s.cur c5s.mov - hnrLb c5P.n c5s.cur c5s.mov).toNat = c5s.cur :=
    adaptBlock_of_one_le _ _ _ _ _ _ (fun l => by norm_num [c5P])
  have hrun : (unHitAndRun c5P c5s 0).1 1 = -3 := by
    unfold unHitAndRun
    have had : c5P.adaptive = true := rfl
    rw [if_pos had]
    norm_num [c5s]
  refine ⟨?_, hrun, ?_⟩
  · rw [hb]
    decide
  · rw [hrun, hb]
    decide

end AlgStat
